import Mathlib

/-!
Verification of the Room Management and Combat Resolution core of the
40000Warriors game.  Numeric quantities that the Python source stores as
floats are modelled over the rationals; pygame millisecond timestamps are
modelled as integers passed in explicitly.  Euclidean distances, computed
with math.sqrt in the source, are passed as an explicit value `dist`
constrained by `0 ≤ dist ∧ dist ^ 2 = dx ^ 2 + dy ^ 2` in the theorems.
-/

namespace Warriors

/-! ## ScoutMarine (src/scout_marine.py) -/

/-- Embedding of `ScoutMarine.take_damage` (scout_marine.py lines 164-176):
reduction capped at 80 percent, at least 1 point of damage, health clamped
to 0 on death; returns the new health together with the dead flag. -/
def takeDamage (armor health amount : ℚ) : ℚ × Bool :=
  let damage_reduction := min (amount * 0.01 * armor) (amount * 0.8)
  let actual_damage := max 1 (amount - damage_reduction)
  let health1 := health - actual_damage
  if health1 ≤ 0 then (0, true) else (health1, false)

/-- Embedding of `ScoutMarine.heal` (scout_marine.py lines 178-180). -/
def heal (max_health health amount : ℚ) : ℚ :=
  min max_health (health + amount)

/-- Embedding of `ScoutMarine.move` (scout_marine.py lines 81-91): each axis
is moved only when the displaced bounding box stays inside the screen. -/
def move (screen_width screen_height width height x y dx dy : ℚ) : ℚ × ℚ :=
  let new_x := x + dx
  let new_y := y + dy
  let x1 := if 0 ≤ new_x ∧ new_x + width ≤ screen_width then new_x else x
  let y1 := if 0 ≤ new_y ∧ new_y + height ≤ screen_height then new_y else y
  (x1, y1)

/-! ## TyranidSprite (src/tyranid_sprites.py) -/

/-- Embedding of `TyranidSprite.take_damage` (tyranid_sprites.py lines
176-179): plain subtraction, no clamping, dead iff health ≤ 0 after. -/
def tyranidTakeDamage (health amount : ℚ) : ℚ × Bool :=
  let health1 := health - amount
  (health1, decide (health1 ≤ 0))

/-- Embedding of `TyranidSprite.can_attack` (tyranid_sprites.py lines
161-168).  `dist` is the Euclidean distance to the target, computed with
math.sqrt in the source; times are pygame millisecond ticks. -/
def canAttack (dist attack_range : ℚ)
    (now last_attack_time attack_cooldown : ℤ) : Bool :=
  let cooldown_passed := attack_cooldown < now - last_attack_time
  decide (dist < attack_range) && decide cooldown_passed

/-- Condition of the claimed `can_attack` contract, written from the words
of the specification (distance strictly below range, elapsed time at least
the cooldown), for comparison with `canAttack`. -/
def canAttackSpec (dist attack_range : ℚ)
    (now last_attack_time attack_cooldown : ℤ) : Prop :=
  dist < attack_range ∧ attack_cooldown ≤ now - last_attack_time

/-! ## Melee resolution (`ScoutMarine.check_enemy_collision`,
src/scout_marine.py lines 182-216) -/

/-- Center abscissa used by `check_enemy_collision`: `x + width // 2` with
Python integer floor division on the width. -/
def centerX (x : ℚ) (width : ℕ) : ℚ := x + (width / 2 : ℕ)

/-- Center ordinate used by `check_enemy_collision`: `y + height // 2`. -/
def centerY (y : ℚ) (height : ℕ) : ℚ := y + (height / 2 : ℕ)

/-- Melee damage formula of `check_enemy_collision` (scout_marine.py lines
205-207): attack damage scaled by `1 - distance / attack_range`. -/
def meleeDamage (attack_damage attack_range dist : ℚ) : ℚ :=
  attack_damage * (1 - dist / attack_range)

/-- Hit test and damage of one enemy in `check_enemy_collision`
(scout_marine.py lines 189-214): `dx` and `dy` are the center deltas from
the player to the enemy and `dist` their Euclidean norm; the result is the
damage applied when the enemy is hit, `none` otherwise.  The player must be
attacking, the enemy strictly inside the attack range, and on the side the
player faces (`direction` is the string "right" or "left"). -/
def meleeResolve (is_attacking : Bool) (direction : String)
    (attack_damage attack_range dx dy dist : ℚ) : Option ℚ :=
  if !is_attacking then none
  else
    let in_range := decide (dist < attack_range)
    let in_direction :=
      (decide (0 < dx) && decide (direction = "right")) ||
      (decide (dx < 0) && decide (direction = "left"))
    if in_range && in_direction then
      some (meleeDamage attack_damage attack_range dist)
    else none

/-- C1: For every non-negative damage amount, `ScoutMarine.take_damage`
computes reduction = min(amount * 0.01 * armor, amount * 0.8), subtracts
actual = max(1, amount - reduction) from health (clamping at 0 on death),
and returns true iff the resulting health is ≤ 0; with armor 20 and amount
100 the loss is exactly 80, with armor 100 and amount 100 exactly 20. -/
theorem scout_take_damage_formula (armor health amount : ℚ)
    (hamount : 0 ≤ amount) :
    (let damage_reduction := min (amount * 0.01 * armor) (amount * 0.8)
     let actual_damage := max 1 (amount - damage_reduction)
     ((takeDamage armor health amount).2 = true ↔ health - actual_damage ≤ 0)
     ∧ (¬ health - actual_damage ≤ 0 →
          (takeDamage armor health amount).1 = health - actual_damage))
    ∧ takeDamage 20 100 100 = (100 - 80, false)
    ∧ takeDamage 100 100 100 = (100 - 20, false) := by
  refine ⟨⟨?_, ?_⟩, by norm_num [takeDamage], by norm_num [takeDamage]⟩
  · simp only [takeDamage]
    split <;> simp_all
  · intro h
    simp only [takeDamage]
    split <;> simp_all

/-- Witness for `scout_take_damage_formula` at armor 20, health 100,
amount 100. -/
theorem scout_take_damage_formula_witness :
    takeDamage 20 100 100 = (100 - 80, false) :=
  (scout_take_damage_formula 20 100 100 (by norm_num)).2.1

/-- C9: the invariant 0 ≤ health ≤ max_health is preserved by both
`ScoutMarine.take_damage` and `ScoutMarine.heal` for non-negative
arguments; `take_damage` clamps health to exactly 0 on death (unlike
`TyranidSprite.take_damage`, which can leave health negative), and `heal`
never raises health above max_health. -/
theorem scout_health_invariant (armor max_health health amount : ℚ)
    (h0 : 0 ≤ health) (hmax : health ≤ max_health) (hamt : 0 ≤ amount) :
    (0 ≤ (takeDamage armor health amount).1
      ∧ (takeDamage armor health amount).1 ≤ max_health)
    ∧ (0 ≤ heal max_health health amount
      ∧ heal max_health health amount ≤ max_health)
    ∧ ((takeDamage armor health amount).2 = true →
        (takeDamage armor health amount).1 = 0)
    ∧ tyranidTakeDamage 10 30 = (-20, true) := by
  have hm0 : 0 ≤ max_health := le_trans h0 hmax
  refine ⟨⟨?_, ?_⟩, ⟨?_, ?_⟩, ?_, by norm_num [tyranidTakeDamage]⟩
  · simp only [takeDamage]
    split
    · exact le_refl 0
    · linarith [not_le.mp (by assumption : ¬ _ ≤ (0 : ℚ))]
  · simp only [takeDamage]
    split
    · exact hm0
    · have h1 : (1 : ℚ) ≤ max 1 (amount - min (amount * 0.01 * armor) (amount * 0.8)) :=
        le_max_left _ _
      linarith
  · simp only [heal]
    exact le_min hm0 (by linarith)
  · exact min_le_left _ _
  · simp only [takeDamage]
    split <;> simp_all

/-- Witness for `scout_health_invariant` at armor 20, max 100, health 50,
amount 100. -/
theorem scout_health_invariant_witness :
    0 ≤ (takeDamage 20 50 100).1 ∧ (takeDamage 20 50 100).1 ≤ 100 :=
  (scout_health_invariant 20 100 50 100 (by norm_num) (by norm_num)
    (by norm_num)).1

/-- C10: `ScoutMarine.move` clamps per axis independently: a bounding box
inside the screen stays inside for every displacement, an out-of-bounds
axis keeps its old coordinate, and the other axis still moves. -/
theorem scout_move_bounds (screen_width screen_height width height
    x y dx dy : ℚ)
    (hx0 : 0 ≤ x) (hx1 : x + width ≤ screen_width)
    (hy0 : 0 ≤ y) (hy1 : y + height ≤ screen_height) :
    (let r := move screen_width screen_height width height x y dx dy
     (0 ≤ r.1 ∧ r.1 + width ≤ screen_width
       ∧ 0 ≤ r.2 ∧ r.2 + height ≤ screen_height)
     ∧ (¬ (0 ≤ x + dx ∧ x + dx + width ≤ screen_width) → r.1 = x)
     ∧ (¬ (0 ≤ y + dy ∧ y + dy + height ≤ screen_height) → r.2 = y)
     ∧ ((0 ≤ x + dx ∧ x + dx + width ≤ screen_width) → r.1 = x + dx)
     ∧ ((0 ≤ y + dy ∧ y + dy + height ≤ screen_height) → r.2 = y + dy)) := by
  simp only [move]
  constructor
  · constructor
    · split <;> simp_all
    constructor
    · split <;> simp_all
    constructor
    · split <;> simp_all
    · split <;> simp_all
  · refine ⟨?_, ?_, ?_, ?_⟩ <;> intro h <;> simp_all

/-- Witness for `scout_move_bounds`: a move that would cross the right
edge leaves x unchanged while y still moves. -/
theorem scout_move_bounds_witness :
    (move 800 600 50 70 700 100 (200 : ℚ) 30).1 = 700
      ∧ (move 800 600 50 70 700 100 (200 : ℚ) 30).2 = 130 := by
  have h := scout_move_bounds 800 600 50 70 700 100 200 30
    (by norm_num) (by norm_num) (by norm_num) (by norm_num)
  refine ⟨h.2.1 (by norm_num), ?_⟩
  have h2 := h.2.2.2.2 (by norm_num)
  rw [h2]; norm_num

/-- C4: damage applied by the melee pass equals
attack_damage * (1 - distance/attack_range), a strictly decreasing linear
function of the center distance, with full damage at distance 0, half at
half range, 0 at full range; and only enemies strictly inside the attack
range and on the half-plane the player faces are damaged at all. -/
theorem melee_damage_linear (is_attacking : Bool) (direction : String)
    (attack_damage attack_range dx dy dist : ℚ)
    (hd0 : 0 ≤ dist) (hsq : dist ^ 2 = dx ^ 2 + dy ^ 2)
    (hr : 0 < attack_range) (hA : 0 < attack_damage) :
    (∀ d, meleeResolve is_attacking direction attack_damage attack_range
        dx dy dist = some d →
      d = meleeDamage attack_damage attack_range dist
        ∧ dist < attack_range
        ∧ ((0 < dx ∧ direction = "right") ∨ (dx < 0 ∧ direction = "left")))
    ∧ meleeDamage attack_damage attack_range 0 = attack_damage
    ∧ meleeDamage attack_damage attack_range (attack_range / 2)
        = attack_damage / 2
    ∧ meleeDamage attack_damage attack_range attack_range = 0
    ∧ (∀ d1 d2 : ℚ, d1 < d2 →
        meleeDamage attack_damage attack_range d2
          < meleeDamage attack_damage attack_range d1) := by
  have hrne : attack_range ≠ 0 := ne_of_gt hr
  refine ⟨?_, ?_, ?_, ?_, ?_⟩
  · intro d h
    cases is_attacking with
    | false => simp [meleeResolve] at h
    | true =>
      simp only [meleeResolve, Bool.not_true, Bool.false_eq_true,
        if_false] at h
      split at h
      · rename_i hcond
        simp only [Bool.and_eq_true, Bool.or_eq_true, decide_eq_true_eq]
          at hcond
        exact ⟨(Option.some_inj.mp h).symm, hcond.1, hcond.2⟩
      · exact absurd h (by simp)
  · simp [meleeDamage]
  · field_simp [meleeDamage]
    ring
  · field_simp [meleeDamage]
  · intro d1 d2 hlt
    have h1 : d1 / attack_range < d2 / attack_range :=
      div_lt_div_of_pos_right hlt hr
    have h2 : (1 - d2 / attack_range) < (1 - d1 / attack_range) := by linarith
    simpa [meleeDamage] using mul_lt_mul_of_pos_left h2 hA

/-- Witness for `melee_damage_linear`: an enemy at center offset (3, 4),
distance 5, while the player attacks facing right with damage 25 and
range 60, takes 25 * (1 - 5/60) = 275/12 damage. -/
theorem melee_damage_linear_witness :
    (275 : ℚ) / 12 = meleeDamage 25 60 5
      ∧ (5 : ℚ) < 60
      ∧ (((0 : ℚ) < 3 ∧ "right" = "right") ∨ ((3 : ℚ) < 0 ∧ "right" = "left")) :=
  (melee_damage_linear true "right" 25 60 3 4 5 (by norm_num) (by norm_num)
    (by norm_num) (by norm_num)).1 (275 / 12)
    (by norm_num [meleeResolve, meleeDamage])

/-- C5 counterexample: with distance 0 (target at the entity position),
attack_range 50, cooldown 1000 ms and exactly 1000 ms elapsed, the claimed
contract (elapsed ≥ cooldown) holds, yet `can_attack` returns false: the
source compares with strict >, not ≥. -/
theorem can_attack_boundary_counterexample :
    canAttackSpec 0 50 1000 0 1000
      ∧ canAttack 0 50 1000 0 1000 = false := by
  constructor
  · constructor <;> norm_num [canAttackSpec]
  · norm_num [canAttack]

/-- C5 amended: `can_attack(target_x, target_y)` returns true iff the
Euclidean distance to the target is strictly less than attack_range AND
the elapsed time since last_attack_time is strictly greater than
attack_cooldown. -/
theorem can_attack_characterization (px py x y dist attack_range : ℚ)
    (now last_attack_time attack_cooldown : ℤ)
    (hd0 : 0 ≤ dist) (hsq : dist ^ 2 = (px - x) ^ 2 + (py - y) ^ 2) :
    canAttack dist attack_range now last_attack_time attack_cooldown = true
      ↔ dist < attack_range ∧ attack_cooldown < now - last_attack_time := by
  simp [canAttack]

/-- Witness for `can_attack_characterization` at the 3-4-5 triangle with
range 50, cooldown 500 and 2000 ms elapsed. -/
theorem can_attack_characterization_witness :
    canAttack 5 50 2000 0 500 = true :=
  (can_attack_characterization 3 4 0 0 5 50 2000 0 500 (by norm_num)
    (by norm_num)).mpr (by norm_num)

/-! ## Boss phase-transition side effects (src/boss_system.py lines
186-200).  The combat-relevant fields of `Boss` mutated by
`on_phase_transition`; minions and arena effects are abstracted by
identifiers. -/

structure BossCombat where
  pattern_timer : ℕ
  current_pattern : ℕ
  summoned_minions : List ℕ
  arena_effects : List ℕ
  enraged : Bool
  damage_multiplier : ℚ
  speed : ℚ
  current_phase_name : String
deriving DecidableEq

/-- Embedding of `Boss.on_phase_transition` (boss_system.py lines
186-200): timers and pattern index reset, minions and arena effects
cleared, and the Enraged phase doubles the damage multiplier and scales
speed by 1.5. -/
def onPhaseTransition (b : BossCombat) : BossCombat :=
  let b1 := { b with pattern_timer := 0, current_pattern := 0,
                     summoned_minions := [], arena_effects := [] }
  if b1.current_phase_name = "Enraged" then
    { b1 with enraged := true, damage_multiplier := 2.0,
              speed := b1.speed * 1.5 }
  else b1

/-- C6: after `on_phase_transition`, pattern timer and index are 0, the
minion and arena-effect collections are empty; entering a phase named
"Enraged" sets damage multiplier 2.0 and multiplies speed by 1.5, and no
other phase name changes damage multiplier or speed. -/
theorem boss_phase_transition_effects (b : BossCombat) :
    (onPhaseTransition b).pattern_timer = 0
    ∧ (onPhaseTransition b).current_pattern = 0
    ∧ (onPhaseTransition b).summoned_minions = []
    ∧ (onPhaseTransition b).arena_effects = []
    ∧ (b.current_phase_name = "Enraged" →
        (onPhaseTransition b).damage_multiplier = 2.0
        ∧ (onPhaseTransition b).speed = b.speed * 1.5
        ∧ (onPhaseTransition b).enraged = true)
    ∧ (b.current_phase_name ≠ "Enraged" →
        (onPhaseTransition b).damage_multiplier = b.damage_multiplier
        ∧ (onPhaseTransition b).speed = b.speed
        ∧ (onPhaseTransition b).enraged = b.enraged) := by
  simp only [onPhaseTransition]
  by_cases h : b.current_phase_name = "Enraged" <;> simp [h]

/-- Witness for `boss_phase_transition_effects` on a concrete enraging
boss with speed 4. -/
theorem boss_phase_transition_effects_witness :
    (onPhaseTransition ⟨120, 2, [1, 2], [3], false, 1, 4, "Enraged"⟩).speed
      = 4 * 1.5 :=
  ((boss_phase_transition_effects
    ⟨120, 2, [1, 2], [3], false, 1, 4, "Enraged"⟩).2.2.2.2.1 rfl).2.1

/-! ## Room (src/room_system.py lines 283-391).  Enemies and NPCs are
abstracted by identifiers: `Room.update` calls their update methods,
which mutate the entities internally but never the collections. -/

structure GameRoom where
  enemies : List ℕ
  npcs : List ℕ
  items : List ℕ
  is_cleared : Bool
  is_visited : Bool
deriving DecidableEq

/-- Operations the repository performs on a room: the add methods of
`Room` (room_system.py lines 312-325), `Room.update` (lines 371-391), and
the direct enemy removal done by the game loop (main_game.py line 222). -/
inductive RoomOp where
  | addEnemy (e : ℕ)
  | addNpc (n : ℕ)
  | addItem (i : ℕ)
  | removeEnemy (e : ℕ)
  | update
deriving DecidableEq

/-- Embedding of one room operation.  `Room.update` updates every
transition, NPC and enemy in place and then sets `is_cleared` when the
enemy collection is empty and the flag was not yet set. -/
def applyRoomOp (r : GameRoom) : RoomOp → GameRoom
  | .addEnemy e => { r with enemies := r.enemies ++ [e] }
  | .addNpc n => { r with npcs := r.npcs ++ [n] }
  | .addItem i => { r with items := r.items ++ [i] }
  | .removeEnemy e => { r with enemies := r.enemies.erase e }
  | .update =>
      if !r.is_cleared ∧ r.enemies.length = 0 then
        { r with is_cleared := true }
      else r

/-- Folding a sequence of room operations. -/
def applyRoomOps (r : GameRoom) : List RoomOp → GameRoom
  | [] => r
  | op :: ops => applyRoomOps (applyRoomOp r op) ops

/-- C8: `Room.update` sets is_cleared once the enemy collection is empty,
and the flag is one-way: no sequence of room operations (including adding
enemies after clearing and further updates) ever resets it to false. -/
theorem room_cleared_one_way (r : GameRoom) (ops : List RoomOp) :
    (r.enemies = [] → (applyRoomOp r .update).is_cleared = true)
    ∧ (r.is_cleared = true → (applyRoomOps r ops).is_cleared = true) := by
  constructor
  · intro h
    simp only [applyRoomOp]
    by_cases hc : r.is_cleared
    · simp [hc]
    · simp [hc, h]
  · intro h
    induction ops generalizing r with
    | nil => exact h
    | cons op ops ih =>
      refine ih (applyRoomOp r op) ?_
      cases op <;> simp only [applyRoomOp] <;> first
        | exact h
        | (split <;> simp [h])

/-- Witness for `room_cleared_one_way`: an empty room becomes cleared by
update, and stays cleared after an enemy is added and updates follow. -/
theorem room_cleared_one_way_witness :
    (applyRoomOps ⟨[], [], [], true, true⟩
      [.addEnemy 7, .update, .update]).is_cleared = true :=
  (room_cleared_one_way ⟨[], [], [], true, true⟩
    [.addEnemy 7, .update, .update]).2 rfl

/-! ## RoomManager transition state machine (src/room_system.py lines
161-241).  Rooms are an association list from identifier to an abstract
room value `R`; transition progress advances by a fixed speed per
`update_transition` call. -/

structure RoomMgr (R : Type) where
  rooms : List (String × R)
  current_room_id : Option String
  transition_effect : Option String
  transition_progress : ℚ
  transition_speed : ℚ
  is_transitioning : Bool
  next_room_id : Option String

/-- Embedding of `RoomManager.get_current_room` (room_system.py lines
205-207). -/
def getCurrentRoom {R : Type} (m : RoomMgr R) : Option R :=
  match m.current_room_id with
  | none => none
  | some id => m.rooms.lookup id

/-- Embedding of `RoomManager.transition_to_room` (room_system.py lines
209-218): fails when the target id is unknown or a transition is already
in progress, otherwise records the pending transition with progress 0. -/
def transitionToRoom {R : Type} (m : RoomMgr R) (room_id effect : String) :
    Bool × RoomMgr R :=
  if (m.rooms.lookup room_id).isNone || m.is_transitioning then (false, m)
  else
    (true, { m with is_transitioning := true, next_room_id := some room_id,
                    transition_effect := some effect,
                    transition_progress := 0 })

/-- Embedding of `RoomManager.update_transition` (room_system.py lines
220-232): progress accumulates by the speed; on reaching 1 the current
room id becomes the pending id and the pending state is cleared. -/
def updateTransition {R : Type} (m : RoomMgr R) : RoomMgr R :=
  if !m.is_transitioning then m
  else
    let p := m.transition_progress + m.transition_speed
    if 1 ≤ p then
      { m with current_room_id := m.next_room_id, next_room_id := none,
               is_transitioning := false, transition_progress := 0 }
    else { m with transition_progress := p }

/-- Iterated `update_transition` calls. -/
def iterUpdate {R : Type} : ℕ → RoomMgr R → RoomMgr R
  | 0, m => m
  | n + 1, m => iterUpdate n (updateTransition m)

theorem updateTransition_not_transitioning {R : Type} (m : RoomMgr R)
    (h : m.is_transitioning = false) : updateTransition m = m := by
  simp [updateTransition, h]

theorem iterUpdate_not_transitioning {R : Type} (n : ℕ) (m : RoomMgr R)
    (h : m.is_transitioning = false) : iterUpdate n m = m := by
  induction n with
  | zero => rfl
  | succ n ih => simp [iterUpdate, updateTransition_not_transitioning m h, ih]

theorem iterUpdate_completes {R : Type} (n : ℕ) (m : RoomMgr R)
    (id : String) (ht : m.is_transitioning = true)
    (hn : m.next_room_id = some id)
    (hlt : m.transition_progress < 1)
    (hge : 1 ≤ m.transition_progress + n * m.transition_speed) :
    (iterUpdate n m).current_room_id = some id
      ∧ (iterUpdate n m).is_transitioning = false
      ∧ (iterUpdate n m).rooms = m.rooms := by
  induction n generalizing m with
  | zero =>
    exfalso
    simp only [Nat.cast_zero, zero_mul, add_zero] at hge
    exact absurd hge (not_le.mpr hlt)
  | succ n ih =>
    simp only [iterUpdate]
    by_cases hdone : 1 ≤ m.transition_progress + m.transition_speed
    · have hstep : updateTransition m =
          { m with current_room_id := m.next_room_id, next_room_id := none,
                   is_transitioning := false, transition_progress := 0 } := by
        simp [updateTransition, ht, hdone]
      rw [hstep, iterUpdate_not_transitioning n _ rfl]
      exact ⟨hn, rfl, rfl⟩
    · have hstep : updateTransition m =
          { m with transition_progress :=
              m.transition_progress + m.transition_speed } := by
        simp only [updateTransition, ht, Bool.not_true, Bool.false_eq_true,
          if_false]
        rw [if_neg hdone]
      rw [hstep]
      refine ih _ ht hn (not_le.mp hdone) ?_
      push_cast
      push_cast at hge
      linarith

/-- C2: `transition_to_room` fails and changes nothing on an unknown id or
while a transition is in progress; on success progress is 0 and a
transition is marked in progress while `get_current_room` still returns
the old room; `update_transition` keeps returning the old room until the
accumulated progress reaches 1, at which point the current room id becomes
the requested target and the pending state is cleared. -/
theorem room_transition_state_machine {R : Type} (m : RoomMgr R)
    (id eff : String) (n : ℕ) :
    (((m.rooms.lookup id).isNone = true ∨ m.is_transitioning = true) →
        transitionToRoom m id eff = (false, m))
    ∧ ((m.rooms.lookup id).isNone = false → m.is_transitioning = false →
        (transitionToRoom m id eff).1 = true
        ∧ (transitionToRoom m id eff).2.transition_progress = 0
        ∧ (transitionToRoom m id eff).2.is_transitioning = true
        ∧ getCurrentRoom (transitionToRoom m id eff).2 = getCurrentRoom m)
    ∧ (∀ m' : RoomMgr R, m'.is_transitioning = true →
        m'.transition_progress + m'.transition_speed < 1 →
        getCurrentRoom (updateTransition m') = getCurrentRoom m'
          ∧ (updateTransition m').is_transitioning = true)
    ∧ ((m.rooms.lookup id).isNone = false → m.is_transitioning = false →
        1 ≤ (n : ℚ) * m.transition_speed →
        (iterUpdate n (transitionToRoom m id eff).2).current_room_id
            = some id
          ∧ (iterUpdate n (transitionToRoom m id eff).2).is_transitioning
            = false) := by
  refine ⟨?_, ?_, ?_, ?_⟩
  · intro h
    rcases h with h | h <;> simp [transitionToRoom, h]
  · intro h1 h2
    simp [transitionToRoom, h1, h2, getCurrentRoom]
  · intro m' ht hp
    have hstep : updateTransition m' =
        { m' with transition_progress :=
            m'.transition_progress + m'.transition_speed } := by
      simp only [updateTransition, ht, Bool.not_true, Bool.false_eq_true,
        if_false]
      rw [if_neg (not_le.mpr hp)]
    rw [hstep]
    exact ⟨by simp [getCurrentRoom], ht⟩
  · intro h1 h2 hn
    have hsucc : (transitionToRoom m id eff).2 =
        { m with is_transitioning := true, next_room_id := some id,
                 transition_effect := some eff, transition_progress := 0 } := by
      simp [transitionToRoom, h1, h2]
    rw [hsucc]
    have h := iterUpdate_completes n
      { m with is_transitioning := true, next_room_id := some id,
               transition_effect := some eff, transition_progress := 0 }
      id rfl rfl (by norm_num) (by simpa using hn)
    exact ⟨h.1, h.2.1⟩

/-- Witness for `room_transition_state_machine`: a two-room manager with
speed 1 reaches room b after one update. -/
theorem room_transition_state_machine_witness :
    (iterUpdate 1 (transitionToRoom
      (⟨[("a", 0), ("b", 1)], some "a", none, 0, 1, false, none⟩ :
        RoomMgr ℕ) "b" "fade").2).current_room_id = some "b" :=
  ((room_transition_state_machine
    (⟨[("a", 0), ("b", 1)], some "a", none, 0, 1, false, none⟩ : RoomMgr ℕ)
    "b" "fade" 1).2.2.2 (by rfl) rfl (by norm_num)).1

/-! ## Boss phase state machine (src/boss_system.py lines 7-15, 58-63,
69-89).  A phase keeps the fields of `BossPhase` relevant to the phase
machine; `current` is the index of the current phase in the list. -/

structure GamePhase where
  name : String
  health_threshold : ℚ
  duration : ℕ
  time_elapsed : ℕ
  active : Bool
deriving DecidableEq

structure PhaseState where
  phases : List GamePhase
  current : Option ℕ
deriving DecidableEq

/-- Embedding of `Boss.add_phase` (boss_system.py lines 58-63): the phase
is appended (constructed inactive with a zero timer, boss_system.py lines
9-15), and the first phase added becomes current and active. -/
def addPhase (s : PhaseState) (name : String) (threshold : ℚ)
    (duration : ℕ) : PhaseState :=
  match s.current with
  | none => ⟨s.phases ++ [⟨name, threshold, duration, 0, true⟩],
             some s.phases.length⟩
  | some i => ⟨s.phases ++ [⟨name, threshold, duration, 0, false⟩], some i⟩

/-- Transition part of `Boss.update_phase` (boss_system.py lines 74-83):
when the health percentage is at most the current phase threshold and a
next phase exists, the current phase is deactivated, the next activated,
and the current index advances by one. -/
def transStep (s : PhaseState) (health_percent : ℚ) : PhaseState :=
  match s.current with
  | none => s
  | some i =>
    match s.phases[i]? with
    | none => s
    | some ph =>
      if health_percent ≤ ph.health_threshold ∧ i + 1 < s.phases.length then
        match s.phases[i + 1]? with
        | none => s
        | some ph2 =>
          ⟨(s.phases.set i { ph with active := false }).set (i + 1)
              { ph2 with active := true },
            some (i + 1)⟩
      else s

/-- Timer part of `Boss.update_phase` (boss_system.py lines 86-89): a
timed current phase accrues elapsed time (`on_phase_timeout` is a no-op
in the source). -/
def tickTimer (s : PhaseState) : PhaseState :=
  match s.current with
  | none => s
  | some i =>
    match s.phases[i]? with
    | none => s
    | some ph =>
      if 0 < ph.duration then
        { s with phases :=
            s.phases.set i { ph with time_elapsed := ph.time_elapsed + 1 } }
      else s

/-- Embedding of `Boss.update_phase` (boss_system.py lines 69-89): the
threshold transition followed by the phase timer. -/
def updatePhase (s : PhaseState) (health_percent : ℚ) : PhaseState :=
  tickTimer (transStep s health_percent)

/-- Current phase index (0 when no phase has been added). -/
def currentIdx (s : PhaseState) : ℕ := s.current.getD 0

/-- Folding `update_phase` over a sequence of health percentages, one per
game tick. -/
def runPhases (s : PhaseState) : List ℚ → PhaseState
  | [] => s
  | h :: t => runPhases (updatePhase s h) t

/-- Trace of the current phase index after each tick. -/
def phaseTrace (s : PhaseState) : List ℚ → List ℕ
  | [] => []
  | h :: t => currentIdx (updatePhase s h) :: phaseTrace (updatePhase s h) t

/-- Well-formed phase machine: a current index inside the list whose
phase, and only it, is active. -/
def WFPhase (s : PhaseState) : Prop :=
  ∃ i, s.current = some i ∧ i < s.phases.length ∧
    ∀ j ph, s.phases[j]? = some ph → (ph.active = true ↔ j = i)

theorem transStep_current (s : PhaseState) (hp : ℚ) :
    (transStep s hp).current = s.current ∨
      ∃ i, s.current = some i ∧ (transStep s hp).current = some (i + 1)
        ∧ i + 1 < s.phases.length := by
  unfold transStep
  split
  · left; rfl
  next i hc =>
    split
    · left; rfl
    · split
      next hcond =>
        split
        · left; rfl
        · right; exact ⟨i, hc, rfl, hcond.2⟩
      · left; rfl

theorem transStep_length (s : PhaseState) (hp : ℚ) :
    (transStep s hp).phases.length = s.phases.length := by
  unfold transStep
  split
  · rfl
  · split
    · rfl
    · split
      · split
        · rfl
        · simp [List.length_set]
      · rfl

theorem tickTimer_current (s : PhaseState) :
    (tickTimer s).current = s.current := by
  unfold tickTimer
  split
  · rfl
  · split
    · rfl
    · split <;> rfl

theorem tickTimer_length (s : PhaseState) :
    (tickTimer s).phases.length = s.phases.length := by
  unfold tickTimer
  split
  · rfl
  · split
    · rfl
    · split
      · simp [List.length_set]
      · rfl

theorem tickTimer_active (s : PhaseState) (j : ℕ) :
    ((tickTimer s).phases[j]?).map (fun p => p.active)
      = (s.phases[j]?).map (fun p => p.active) := by
  unfold tickTimer
  split
  · rfl
  next i hc =>
    split
    · rfl
    next ph hph =>
      split
      · by_cases hj : j = i
        · subst hj
          have hlt : j < s.phases.length :=
            (List.getElem?_eq_some_iff.mp hph).1
          simp [List.getElem?_set_self hlt, hph]
        · simp [List.getElem?_set_ne (Ne.symm hj)]
      · rfl

theorem updatePhase_length (s : PhaseState) (hp : ℚ) :
    (updatePhase s hp).phases.length = s.phases.length := by
  rw [updatePhase, tickTimer_length, transStep_length]

theorem updatePhase_current (s : PhaseState) (hp : ℚ) :
    (updatePhase s hp).current = s.current ∨
      ∃ i, s.current = some i ∧ (updatePhase s hp).current = some (i + 1)
        ∧ i + 1 < s.phases.length := by
  rw [updatePhase, tickTimer_current]
  exact transStep_current s hp

theorem updatePhase_idx (s : PhaseState) (hp : ℚ) :
    currentIdx s ≤ currentIdx (updatePhase s hp)
      ∧ currentIdx (updatePhase s hp) ≤ currentIdx s + 1 := by
  rcases updatePhase_current s hp with h | ⟨i, hc, hc', _⟩
  · rw [currentIdx, currentIdx, h]
    exact ⟨le_refl _, Nat.le_succ _⟩
  · rw [currentIdx, currentIdx, hc, hc']
    exact ⟨Nat.le_succ _, le_refl _⟩

theorem transStep_WF (s : PhaseState) (hp : ℚ) (hWF : WFPhase s) :
    WFPhase (transStep s hp) := by
  obtain ⟨i, hc, hi, hact⟩ := hWF
  unfold transStep
  split
  · exact ⟨i, hc, hi, hact⟩
  next i' hc' =>
    have hii : i' = i := by
      rw [hc] at hc'; exact (Option.some_inj.mp hc').symm
    subst hii
    split
    · exact ⟨i', hc, hi, hact⟩
    next ph hph =>
      split
      next hcond =>
        have hnext : i' + 1 < s.phases.length := hcond.2
        split
        · exact ⟨i', hc, hi, hact⟩
        next ph2 hph2 =>
          refine ⟨i' + 1, rfl, by simp [List.length_set, hnext], ?_⟩
          intro j q hq
          by_cases hj1 : j = i' + 1
          · subst hj1
            rw [List.getElem?_set_self
              (by simp only [List.length_set]; exact hnext)] at hq
            cases hq
            simp
          · rw [List.getElem?_set_ne (Ne.symm hj1)] at hq
            by_cases hj0 : j = i'
            · subst hj0
              rw [List.getElem?_set_self hi] at hq
              cases hq
              simp [hj1]
            · rw [List.getElem?_set_ne (Ne.symm hj0)] at hq
              rw [hact j q hq]
              simp [hj0, hj1]
      · exact ⟨i', hc, hi, hact⟩

theorem tickTimer_WF (s : PhaseState) (hWF : WFPhase s) :
    WFPhase (tickTimer s) := by
  obtain ⟨i, hc, hi, hact⟩ := hWF
  refine ⟨i, by rw [tickTimer_current, hc], by rw [tickTimer_length]; exact hi, ?_⟩
  intro j q hq
  have hmap := tickTimer_active s j
  rw [hq] at hmap
  rcases Option.map_eq_some'.mp hmap.symm with ⟨q', hq', hqq⟩
  simp only at hqq
  rw [← hqq]
  exact hact j q' hq'

theorem updatePhase_WF (s : PhaseState) (hp : ℚ) (hWF : WFPhase s) :
    WFPhase (updatePhase s hp) :=
  tickTimer_WF _ (transStep_WF s hp hWF)

theorem updatePhase_at_last (s : PhaseState) (hp : ℚ) (i : ℕ)
    (hc : s.current = some i) (hlast : ¬ i + 1 < s.phases.length) :
    (updatePhase s hp).current = some i := by
  rw [updatePhase, tickTimer_current]
  unfold transStep
  split
  · exact hc
  next i' hc' =>
    have hii : i' = i := by
      rw [hc] at hc'; exact (Option.some_inj.mp hc').symm
    subst hii
    split
    · exact hc
    next ph hph =>
      split
      next hcond => exact absurd hcond.2 hlast
      · exact hc

theorem updatePhase_advance (s : PhaseState) (hp : ℚ) (i : ℕ)
    (ph : GamePhase) (hc : s.current = some i)
    (hph : s.phases[i]? = some ph) (hthr : hp ≤ ph.health_threshold)
    (hnext : i + 1 < s.phases.length) :
    (updatePhase s hp).current = some (i + 1) := by
  rw [updatePhase, tickTimer_current]
  unfold transStep
  split
  next hc' => rw [hc] at hc'; cases hc'
  next i' hc' =>
    have hii : i' = i := by
      rw [hc] at hc'; exact (Option.some_inj.mp hc').symm
    subst hii
    split
    next hph' => rw [hph] at hph'; cases hph'
    next ph' hph' =>
      have hpp : ph' = ph := by
        rw [hph] at hph'; exact (Option.some_inj.mp hph').symm
      subst hpp
      rw [if_pos ⟨hthr, hnext⟩]
      split
      next hph2 =>
        exact absurd (List.getElem?_eq_none_iff.mp hph2) (by omega)
      · rfl

theorem updatePhase_threshold (s : PhaseState) (hp : ℚ) (j : ℕ) :
    ((updatePhase s hp).phases[j]?).map (fun p => p.health_threshold)
      = (s.phases[j]?).map (fun p => p.health_threshold) := by
  have htick : ∀ t : PhaseState,
      ((tickTimer t).phases[j]?).map (fun p => p.health_threshold)
        = (t.phases[j]?).map (fun p => p.health_threshold) := by
    intro t
    unfold tickTimer
    split
    · rfl
    next i hc =>
      split
      · rfl
      next ph hph =>
        split
        · by_cases hj : j = i
          · subst hj
            have hlt : j < t.phases.length :=
              (List.getElem?_eq_some_iff.mp hph).1
            simp [List.getElem?_set_self hlt, hph]
          · simp [List.getElem?_set_ne (Ne.symm hj)]
        · rfl
  rw [updatePhase, htick]
  unfold transStep
  split
  · rfl
  next i hc =>
    split
    · rfl
    next ph hph =>
      split
      · split
        · rfl
        next ph2 hph2 =>
          by_cases hj1 : j = i + 1
          · rw [hj1]
            have hlt : i + 1 < s.phases.length :=
              (List.getElem?_eq_some_iff.mp hph2).1
            rw [List.getElem?_set_self
              (by simp only [List.length_set]; exact hlt), hph2]
            rfl
          · rw [List.getElem?_set_ne (Ne.symm hj1)]
            by_cases hj0 : j = i
            · rw [hj0]
              have hlt : i < s.phases.length :=
                (List.getElem?_eq_some_iff.mp hph).1
              rw [List.getElem?_set_self hlt, hph]
              rfl
            · rw [List.getElem?_set_ne (Ne.symm hj0)]
      · rfl

theorem run_stays_last (hs : List ℚ) (s : PhaseState) (i : ℕ)
    (hc : s.current = some i) (hlast : ¬ i + 1 < s.phases.length) :
    (runPhases s hs).current = some i := by
  induction hs generalizing s with
  | nil => exact hc
  | cons h t ih =>
    have h1 := updatePhase_at_last s h i hc hlast
    have h2 : ¬ i + 1 < (updatePhase s h).phases.length := by
      rw [updatePhase_length]; exact hlast
    exact ih (updatePhase s h) h1 h2

theorem run_completes (hs : List ℚ) (s : PhaseState)
    (hWF : WFPhase s)
    (hthr : ∀ (j : ℕ) (ph : GamePhase), s.phases[j]? = some ph → 0 ≤ ph.health_threshold)
    (hzero : ∀ h ∈ hs, h ≤ 0)
    (hlen : s.phases.length ≤ hs.length + currentIdx s + 1) :
    (runPhases s hs).current = some (s.phases.length - 1) := by
  induction hs generalizing s with
  | nil =>
    obtain ⟨i, hc, hi, _⟩ := hWF
    have hidx : currentIdx s = i := by rw [currentIdx, hc]; rfl
    rw [hidx] at hlen
    simp only [List.length_nil, Nat.zero_add] at hlen
    have : i = s.phases.length - 1 := by omega
    rw [runPhases, hc, this]
  | cons h t ih =>
    obtain ⟨i, hc, hi, hact⟩ := hWF
    by_cases hnext : i + 1 < s.phases.length
    · have hph : s.phases[i]? = some (s.phases.get ⟨i, hi⟩) :=
        List.getElem?_eq_getElem hi
      have hthr_i : 0 ≤ (s.phases.get ⟨i, hi⟩).health_threshold := hthr i _ hph
      have hzh : h ≤ 0 := hzero h (List.mem_cons_self _ _)
      have hadv := updatePhase_advance s h i _ hc hph
        (le_trans hzh hthr_i) hnext
      rw [runPhases]
      have hres := ih (updatePhase s h)
        (updatePhase_WF s h ⟨i, hc, hi, hact⟩)
        (fun j ph hj => by
          have hmap := updatePhase_threshold s h j
          rw [hj] at hmap
          rcases Option.map_eq_some'.mp hmap.symm with ⟨q, hq, hqq⟩
          simp only at hqq
          rw [← hqq]
          exact hthr j q hq)
        (fun x hx => hzero x (List.mem_cons_of_mem h hx))
        (by
          rw [updatePhase_length]
          have hidx' : currentIdx (updatePhase s h) = i + 1 := by
            rw [currentIdx, hadv]; rfl
          have hidx : currentIdx s = i := by rw [currentIdx, hc]; rfl
          rw [hidx']
          rw [hidx] at hlen
          simp only [List.length_cons] at hlen
          omega)
      rw [hres, updatePhase_length]
    · have hieq : i = s.phases.length - 1 := by omega
      rw [runPhases]
      have h1 := updatePhase_at_last s h i hc hnext
      have h2 : ¬ i + 1 < (updatePhase s h).phases.length := by
        rw [updatePhase_length]; exact hnext
      rw [run_stays_last t (updatePhase s h) i h1 h2, hieq]

theorem trace_mem (hs : List ℚ) (s : PhaseState) :
    ∀ k, currentIdx s ≤ k → k ≤ currentIdx (runPhases s hs) →
      k ∈ currentIdx s :: phaseTrace s hs := by
  induction hs generalizing s with
  | nil =>
    intro k h1 h2
    have : k = currentIdx s := le_antisymm h2 h1
    simp [phaseTrace, this]
  | cons h t ih =>
    intro k h1 h2
    by_cases hk : k = currentIdx s
    · simp [phaseTrace, hk]
    · have hlt : currentIdx s < k := lt_of_le_of_ne h1 (Ne.symm hk)
      have hb := updatePhase_idx s h
      have h1' : currentIdx (updatePhase s h) ≤ k := le_trans hb.2 hlt
      have h2' : k ≤ currentIdx (runPhases (updatePhase s h) t) := h2
      exact List.mem_cons_of_mem _ (ih (updatePhase s h) k h1' h2')

/-- C3: for a well-formed boss phase machine, exactly one phase is active
at any time (and this is preserved by updates), each update advances the
current phase index at most one position and only forward, the index
trace of any run is a nondecreasing chain with steps of at most one (so
no phase is ever revisited once left and none is skipped over), and
driving the health percentage down to 0 with enough updates ends in the
last phase, every phase index having appeared in the trace exactly once
as one contiguous block, starting from the first phase. -/
theorem boss_phase_progression (s : PhaseState) (hp : ℚ) (hs hs2 : List ℚ)
    (hWF : WFPhase s) :
    (∃! j : ℕ, ∃ ph : GamePhase, s.phases[j]? = some ph ∧ ph.active = true)
    ∧ WFPhase (updatePhase s hp)
    ∧ (currentIdx s ≤ currentIdx (updatePhase s hp)
        ∧ currentIdx (updatePhase s hp) ≤ currentIdx s + 1)
    ∧ List.Chain (fun a b => a ≤ b ∧ b ≤ a + 1)
        (currentIdx s) (phaseTrace s hs)
    ∧ ((∀ (j : ℕ) (ph : GamePhase), s.phases[j]? = some ph → 0 ≤ ph.health_threshold) →
        (∀ h ∈ hs2, h ≤ 0) →
        s.phases.length ≤ hs2.length + currentIdx s + 1 →
        (runPhases s hs2).current = some (s.phases.length - 1)
          ∧ ∀ k, currentIdx s ≤ k → k < s.phases.length →
              k ∈ currentIdx s :: phaseTrace s hs2) := by
  obtain ⟨i, hc, hi, hact⟩ := hWF
  refine ⟨?_, updatePhase_WF s hp ⟨i, hc, hi, hact⟩, updatePhase_idx s hp,
    ?_, ?_⟩
  · refine ⟨i, ⟨s.phases.get ⟨i, hi⟩, List.getElem?_eq_getElem hi,
      (hact i _ (List.getElem?_eq_getElem hi)).mpr rfl⟩, ?_⟩
    rintro j ⟨ph, hj, hactj⟩
    exact (hact j ph hj).mp hactj
  · clear hc hi hact
    induction hs generalizing s with
    | nil => exact List.Chain.nil
    | cons h t ih => exact List.Chain.cons (updatePhase_idx s h) (ih _)
  · intro hthr hzero hlen
    have hdone := run_completes hs2 s ⟨i, hc, hi, hact⟩ hthr hzero hlen
    refine ⟨hdone, ?_⟩
    intro k hk0 hk1
    refine trace_mem hs2 s k hk0 ?_
    rw [currentIdx, hdone]
    simp only [Option.getD_some]
    omega

/-- Demonstration boss built with `add_phase` in the shape of
`HiveTyrantBoss` (boss_system.py lines 235-237). -/
def demoBoss : PhaseState :=
  addPhase (addPhase (addPhase ⟨[], none⟩ "Normal" 100 0) "Enraged" 50 0)
    "Final" 25 0

theorem demoBoss_WF : WFPhase demoBoss := by
  refine ⟨0, rfl, by decide, ?_⟩
  intro j ph hj
  match j with
  | 0 =>
    rw [show demoBoss.phases[0]? = some ⟨"Normal", 100, 0, 0, true⟩ from rfl]
      at hj
    cases hj
    simp
  | 1 =>
    rw [show demoBoss.phases[1]? = some ⟨"Enraged", 50, 0, 0, false⟩ from rfl]
      at hj
    cases hj
    simp
  | 2 =>
    rw [show demoBoss.phases[2]? = some ⟨"Final", 25, 0, 0, false⟩ from rfl]
      at hj
    cases hj
    simp
  | j + 3 =>
    rw [List.getElem?_eq_none (by
      rw [show demoBoss.phases.length = 3 from rfl]; omega)] at hj
    cases hj

/-- Witness for `boss_phase_progression`: the three-phase demonstration
boss driven to health 0 for two ticks reaches the last phase and its
trace covers every phase index. -/
theorem boss_phase_progression_witness :
    (runPhases demoBoss [0, 0]).current = some (demoBoss.phases.length - 1)
      ∧ ∀ k, currentIdx demoBoss ≤ k → k < demoBoss.phases.length →
          k ∈ currentIdx demoBoss :: phaseTrace demoBoss [0, 0] :=
  (boss_phase_progression demoBoss 0 [] [0, 0] demoBoss_WF).2.2.2.2
    (by
      intro j ph hj
      match j with
      | 0 =>
        rw [show demoBoss.phases[0]? = some ⟨"Normal", 100, 0, 0, true⟩
          from rfl] at hj
        cases hj; norm_num
      | 1 =>
        rw [show demoBoss.phases[1]? = some ⟨"Enraged", 50, 0, 0, false⟩
          from rfl] at hj
        cases hj; norm_num
      | 2 =>
        rw [show demoBoss.phases[2]? = some ⟨"Final", 25, 0, 0, false⟩
          from rfl] at hj
        cases hj; norm_num
      | j + 3 =>
        rw [List.getElem?_eq_none (by
          rw [show demoBoss.phases.length = 3 from rfl]; omega)] at hj
        cases hj)
    (by intro x hx; fin_cases hx <;> norm_num)
    (by rw [show demoBoss.phases.length = 3 from rfl,
      show currentIdx demoBoss = 0 from rfl,
      show ([0, 0] : List ℚ).length = 2 from rfl])

/-! ## Pickup system (src/pickup_system.py).  The manager only ever holds
`AmmoCrate` pickups (`spawn_random_pickup`, pickup_system.py lines
255-262), so a pickup carries the crate fields; the randomly generated
crate of the spawn branch is abstracted as an explicit `fresh` argument.
Only the fields read or written by update, collect, draw and collision
are modelled. -/

structure PlayerAmmo where
  bolter_ammo : ℕ
  max_bolter_ammo : ℕ
  plasma_ammo : ℕ
  max_plasma_ammo : ℕ
  melta_ammo : ℕ
  max_melta_ammo : ℕ
deriving DecidableEq

structure AmmoPickup where
  x : ℚ
  y : ℚ
  width : ℕ
  height : ℕ
  active : Bool
  collected : Bool
  spawn_time : ℕ
  lifetime : ℕ
  ammo_type : String
  ammo_amount : ℕ
deriving DecidableEq

/-- Embedding of `Pickup.update` (pickup_system.py lines 45-61): a pickup
past its lifetime is deactivated; the animation fields are not modelled. -/
def pickupUpdate (now : ℕ) (p : AmmoPickup) : AmmoPickup :=
  if p.lifetime < now - p.spawn_time then { p with active := false } else p

/-- Embedding of `AmmoCrate.collect` (pickup_system.py lines 180-199): on
a not-yet-collected crate, ammo is added to the matching pool up to its
maximum, the crate is marked collected (its `active` flag is NOT touched,
unlike `Pickup.collect`), and the call reports whether any ammo was
actually added. -/
def ammoCollect (p : AmmoPickup) (pl : PlayerAmmo) :
    Bool × AmmoPickup × PlayerAmmo :=
  if !p.collected then
    if p.ammo_type = "bolter" then
      let space_left := pl.max_bolter_ammo - pl.bolter_ammo
      let ammo_added := min space_left p.ammo_amount
      (decide (0 < ammo_added), { p with collected := true },
        { pl with bolter_ammo := pl.bolter_ammo + ammo_added })
    else if p.ammo_type = "plasma" then
      let space_left := pl.max_plasma_ammo - pl.plasma_ammo
      let ammo_added := min space_left p.ammo_amount
      (decide (0 < ammo_added), { p with collected := true },
        { pl with plasma_ammo := pl.plasma_ammo + ammo_added })
    else if p.ammo_type = "melta" then
      let space_left := pl.max_melta_ammo - pl.melta_ammo
      let ammo_added := min space_left p.ammo_amount
      (decide (0 < ammo_added), { p with collected := true },
        { pl with melta_ammo := pl.melta_ammo + ammo_added })
    else (false, { p with collected := true }, pl)
  else (false, p, pl)

/-- Overlap test of `PickupManager.check_collisions` (pickup_system.py
lines 267-268), with Python floor division on the summed sizes. -/
def pickupOverlap (px py : ℚ) (pw ph : ℕ) (p : AmmoPickup) : Bool :=
  decide (|px - p.x| < ((pw + p.width) / 2 : ℕ))
    && decide (|py - p.y| < ((ph + p.height) / 2 : ℕ))

/-- Embedding of `PickupManager.check_collisions` (pickup_system.py lines
264-272): the list is scanned in order; an overlapping pickup is
collected, and only when the collect call reports success is it removed
and true returned at once.  A failed collect keeps the (now mutated)
pickup in the collection and the scan continues. -/
def checkCollisions (px py : ℚ) (pw ph : ℕ) (pl : PlayerAmmo) :
    List AmmoPickup → Bool × List AmmoPickup × PlayerAmmo
  | [] => (false, [], pl)
  | p :: rest =>
    if pickupOverlap px py pw ph p then
      let c := ammoCollect p pl
      if c.1 then (true, rest, c.2.2)
      else
        let r := checkCollisions px py pw ph c.2.2 rest
        (r.1, c.2.1 :: r.2.1, r.2.2)
    else
      let r := checkCollisions px py pw ph pl rest
      (r.1, p :: r.2.1, r.2.2)

/-- Embedding of `PickupManager.update` (pickup_system.py lines 235-248):
a fresh crate is spawned when the interval elapsed and the cap is not
reached, then every pickup is updated and the inactive ones removed. -/
def managerUpdate (now spawn_timer spawn_interval max_pickups : ℕ)
    (fresh : AmmoPickup) (ps : List AmmoPickup) : List AmmoPickup :=
  let ps1 := if spawn_interval < now - spawn_timer
      ∧ ps.length < max_pickups then ps ++ [fresh] else ps
  (ps1.map (pickupUpdate now)).filter (fun p => p.active)

/-- Pickups actually rendered by `PickupManager.draw` (pickup_system.py
lines 250-253): every managed pickup whose `draw` does not return early,
i.e. the active ones (`Pickup.draw`, lines 63-66). -/
def drawnPickups (ps : List AmmoPickup) : List AmmoPickup :=
  ps.filter (fun p => p.active)

/-- Bolter crate used in the C7 counterexample. -/
def fullCrate : AmmoPickup :=
  ⟨0, 0, 40, 40, true, false, 0, 30000, "bolter", 50⟩

/-- Player whose bolter ammo pool is already full. -/
def fullPlayer : PlayerAmmo := ⟨120, 120, 30, 30, 15, 15⟩

/-- C7 counterexample: a bolter crate collected by a player whose bolter
ammo is full is marked collected, yet `check_collisions` does not remove
it (the collect call reported no ammo added), the next manager update
keeps it, and it is still drawn. -/
theorem pickup_collected_still_drawn_counterexample :
    (checkCollisions 0 0 50 70 fullPlayer [fullCrate]).1 = false
    ∧ (checkCollisions 0 0 50 70 fullPlayer [fullCrate]).2.1
        = [{ fullCrate with collected := true }]
    ∧ managerUpdate 1000 1000 30000 5 fullCrate
        [{ fullCrate with collected := true }]
        = [{ fullCrate with collected := true }]
    ∧ drawnPickups [{ fullCrate with collected := true }]
        = [{ fullCrate with collected := true }] := by
  refine ⟨?_, ?_, ?_, ?_⟩ <;>
    norm_num [checkCollisions, pickupOverlap, ammoCollect, fullPlayer,
      fullCrate, managerUpdate, pickupUpdate, drawnPickups]

/-- C7 amended: an expired pickup is removed by the manager update and a
pickup is only ever drawn while it is in the collection; a pickup whose
collect call reports success is removed at once by `check_collisions`;
but an AmmoCrate collected while the matching ammo pool is full stays in
the collection, marked collected, and keeps being drawn until its
lifetime expires. -/
theorem pickup_removal_amended (now spawn_timer spawn_interval
    max_pickups : ℕ) (fresh : AmmoPickup) (ps : List AmmoPickup)
    (px py : ℚ) (pw ph : ℕ) (pl : PlayerAmmo) :
    (∀ p ∈ managerUpdate now spawn_timer spawn_interval max_pickups
        fresh ps, p.active = true ∧ now - p.spawn_time ≤ p.lifetime)
    ∧ (∀ p ∈ drawnPickups ps, p ∈ ps)
    ∧ ((checkCollisions px py pw ph pl ps).1 = true →
        (checkCollisions px py pw ph pl ps).2.1.length + 1 = ps.length) := by
  refine ⟨?_, ?_, ?_⟩
  · intro p hp
    simp only [managerUpdate, List.mem_filter, List.mem_map] at hp
    obtain ⟨⟨q, _, hq⟩, hact⟩ := hp
    refine ⟨hact, ?_⟩
    by_cases hexp : q.lifetime < now - q.spawn_time
    · rw [← hq, pickupUpdate, if_pos hexp] at hact
      simp at hact
    · rw [← hq, pickupUpdate, if_neg hexp]
      exact le_of_not_lt hexp
  · intro p hp
    exact List.mem_of_mem_filter hp
  · induction ps generalizing pl with
    | nil => intro h; simp [checkCollisions] at h
    | cons p rest ih =>
      intro h
      simp only [checkCollisions] at h ⊢
      by_cases hov : pickupOverlap px py pw ph p = true
      · by_cases hcol : (ammoCollect p pl).1 = true
        · rw [if_pos hov, if_pos hcol]
          rfl
        · rw [if_pos hov, if_neg hcol] at h ⊢
          have hrec := ih _ h
          dsimp only
          simp only [List.length_cons]
          omega
      · rw [if_neg hov] at h ⊢
        have hrec := ih _ h
        dsimp only
        simp only [List.length_cons]
        omega

/-- Witness for `pickup_removal_amended`: a successful bolter pickup is
removed from a singleton collection. -/
theorem pickup_removal_amended_witness :
    (checkCollisions 0 0 50 70 (⟨0, 120, 0, 30, 0, 15⟩ : PlayerAmmo)
      [fullCrate]).2.1.length + 1 = [fullCrate].length :=
  (pickup_removal_amended 0 0 30000 5 fullCrate [fullCrate] 0 0 50 70
    ⟨0, 120, 0, 30, 0, 15⟩).2.2
    (by norm_num [checkCollisions, pickupOverlap, ammoCollect, fullCrate])

end Warriors
